import Mathlib

/-!
Shallow embedding of `deploy_mastodon.py`, the release pipeline script of
this repository, together with proofs about its components.

Modelling conventions:

* Text is modelled as `List Char`; a multi-line command output is modelled as
  the list of its lines (the patterns searched for never contain a newline,
  so searching the whole text and searching line by line agree).
* External commands (`run_command` in the source) are modelled by an oracle
  `Exec : List Char → CmdResult` mapping a command string to its success flag
  and combined output; the functions under verification record the commands
  they issue and the lines they print.
* Python `re` searches are modelled by executable scanning functions that
  mirror the semantics of the concrete patterns used by the script
  (leftmost match, greedy `(.+)` capture that cannot cross a newline).
* A Python crash (`AttributeError` on `tag_match.group(1)` when the pattern
  did not match) is modelled by an `Option` result being `none`.
* Path canonicalisation (`os.path.realpath` / `os.path.abspath`) is modelled
  as the identity on the relative path name, and the file system is modelled
  as the list of directories that exist.
-/

namespace DeployMastodon

/-- Characters of a text fragment (one line, a command, a path, ...). -/
abbrev Chars := List Char

/-! ### Version reader (`get_artifact_version`, source lines 43-53)

The source builds the regex `\<NAME\.version\>(.+)\</NAME\.version\>` and
returns the first match's group, or `""` when there is no match. The functions
below implement exactly the semantics of that pattern under Python `re`:
scan start positions left to right; at a start position the literal open tag
must match, then the greedy `(.+)` capture extends to the farthest position,
before any newline, at which the literal close tag matches. -/

/-- Opening tag `<NAME.version>` of the version property searched by the
regex of `get_artifact_version`. -/
def openTagOf (artifact : Chars) : Chars :=
  ("<").data ++ artifact ++ (".version>").data

/-- Closing tag `</NAME.version>` of the version property searched by the
regex of `get_artifact_version`. -/
def closeTagOf (artifact : Chars) : Chars :=
  ("</").data ++ artifact ++ (".version>").data

/-- Backtracking loop of the greedy `(.+)` capture: try capture lengths from
`n` down to `1`, returning the first (largest) length `k` such that the close
tag matches right after the capture and the captured text has no newline
(`.` does not match a newline). -/
def greedyCapture (closeT rest : Chars) : Nat → Option Nat
  | 0 => none
  | k + 1 =>
    if closeT.isPrefixOf (rest.drop (k + 1)) && !((rest.take (k + 1)).contains '\n') then
      some (k + 1)
    else greedyCapture closeT rest k

/-- Attempt to match `openT(.+)closeT` at the very start of `s`, returning
the captured group. -/
def matchAt (openT closeT s : Chars) : Option Chars :=
  if openT.isPrefixOf s then
    let rest := s.drop openT.length
    match greedyCapture closeT rest rest.length with
    | some k => some (rest.take k)
    | none => none
  else none

/-- Leftmost match of `openT(.+)closeT` in `s` (the first match produced by
`re.finditer`), returning the captured group. -/
def findCapture (openT closeT : Chars) : Chars → Option Chars
  | [] => none
  | c :: rest =>
    match matchAt openT closeT (c :: rest) with
    | some g => some g
    | none => findCapture openT closeT rest

/-- Function `get_artifact_version` from the source: the group of the first regex
match of `<artifact.version>(.+)</artifact.version>` in the pom text, or the
empty string when there is none. -/
def get_artifact_version (artifact pom : Chars) : Chars :=
  match findCapture (openTagOf artifact) (closeTagOf artifact) pom with
  | some g => g
  | none => []

/-! ### Cleanliness checker (`check_if_clean`, source lines 55-86) and
`get_branch_name` (source lines 128-137)

The status text is the list of lines of `git status -uno` output. The
patterns `^On branch (.+)$` and `^HEAD detached at (.+)$` with `re.MULTILINE`
match the first line that starts with the literal text and continues with at
least one more character; the group is the remainder of that line. The other
three patterns are plain substring searches. -/

/-- Boolean substring test: does `needle` occur contiguously in `hay`?
(Python `re.search` of a pattern that is a literal.) -/
def containsSeq (needle : Chars) : Chars → Bool
  | [] => needle.isEmpty
  | c :: rest => needle.isPrefixOf (c :: rest) || containsSeq needle rest

/-- Substring search over a whole multi-line output (none of the needles used
by the script contains a newline, so searching line by line is exact). -/
def anyLineHas (needle : Chars) (lines : List Chars) : Bool :=
  lines.any (fun l => containsSeq needle l)

/-- First match of `^pat(.+)$` over the lines of the output: the first line
that starts with `pat` and extends beyond it; the group is the rest of the
line. -/
def matchLineTail (pat : Chars) : List Chars → Option Chars
  | [] => none
  | l :: ls =>
    if pat.isPrefixOf l && decide (pat.length < l.length) then some (l.drop pat.length)
    else matchLineTail pat ls

/-- Literal of the pattern `^On branch (.+)$`. -/
def branchPat : Chars := ("On branch ").data

/-- Literal of the pattern `^HEAD detached at (.+)$`. -/
def detachedPat : Chars := ("HEAD detached at ").data

/-- Up-to-date indicator searched on a branch. -/
def upToDateMark : Chars := ("Your branch is up to date with").data

/-- Up-to-date indicator searched on a detached HEAD. -/
def nothingToCommitMark : Chars := ("nothing to commit").data

/-- Unstaged-changes indicator. -/
def unstagedMark : Chars := ("Changes not staged for commit:").data

/-- Function `check_if_clean` from the source. `gitOk` is the success flag of the
`git status -uno` command and `out` its output lines. The result `none`
models the `AttributeError` crash at `tag_match.group( 1 )` when neither the
branch pattern nor the detached-HEAD pattern matches. -/
def check_if_clean (gitOk : Bool) (out : List Chars)
    (skip_up_to_date skip_unstaged : Bool) : Option Bool :=
  if !gitOk then some false
  else
    let upToDate? : Option Bool :=
      match matchLineTail branchPat out with
      | some _ => some (anyLineHas upToDateMark out)
      | none =>
        match matchLineTail detachedPat out with
        | some _ => some (anyLineHas nothingToCommitMark out)
        | none => none
    match upToDate? with
    | none => none
    | some upToDate =>
      if !skip_up_to_date && !upToDate then some false
      else if !skip_unstaged && anyLineHas unstagedMark out then some false
      else some true

/-- Function `get_branch_name` from the source: the branch of `^On branch (.+)$`, or
the tag of `^HEAD detached at (.+)$`; `none` models the crash at
`tag_match.group( 1 )` when neither matches. -/
def get_branch_name (out : List Chars) : Option Chars :=
  match matchLineTail branchPat out with
  | some b => some b
  | none => matchLineTail detachedPat out

/-! ### Version switcher (`git_checkout_version`, source lines 104-126) -/

/-- Result of one external command: success flag and combined output
(`run_command` in the source). -/
structure CmdResult where
  ok : Bool
  out : Chars
  deriving DecidableEq

/-- The external world seen by one repository: maps a command string to its
result. -/
abbrev Exec := Chars → CmdResult

/-- Suffix tested by `version.endswith('SNAPSHOT')`. -/
def snapshotMark : Chars := ("SNAPSHOT").data

/-- The tag-fetching command of the switcher. -/
def fetchTagsCmd : Chars := ("git pull --tags").data

/-- The checkout command of the switcher: detached-head checkout of the tag
`artifact-version` with the detached-head advice suppressed. -/
def checkoutTagCmd (artifact version : Chars) : Chars :=
  ("git -c advice.detachedHead=false checkout ").data ++ artifact ++ ("-").data ++ version

/-- The aggregate build/install command. -/
def mvnInstallCmd : Chars := ("mvn clean install").data

/-- Outcome of one stage function: its boolean result, the external commands
it issued in order, and the lines it printed in order. -/
structure StageResult where
  success : Bool
  cmds : List Chars
  prints : List Chars
  deriving DecidableEq

/-- Function `git_checkout_version` from the source. Faithful details: the result of
`git pull --tags` is assigned to `ok, out` but overwritten by the checkout
before it is ever read, exactly as in the source (lines 113-116). -/
def git_checkout_version (exec : Exec) (artifact version : Chars)
    (do_install : Bool) : StageResult :=
  if snapshotMark.isSuffixOf version then
    ⟨true, [],
      [("Not checking out SNAPSHOT version ").data ++ version ++ (" of module ").data ++ artifact]⟩
  else
    let p1 := ("Getting tags from remote.").data
    let _r1 := exec fetchTagsCmd
    let p2 := ("Checking out version ").data ++ version ++ (" of module ").data ++ artifact
    let r2 := exec (checkoutTagCmd artifact version)
    if !r2.ok then
      ⟨false, [fetchTagsCmd, checkoutTagCmd artifact version],
        [p1, p2, ("  Could not checkout specified version: ").data ++ r2.out]⟩
    else if do_install then
      let r3 := exec mvnInstallCmd
      if !r3.ok then
        ⟨false, [fetchTagsCmd, checkoutTagCmd artifact version, mvnInstallCmd],
          [p1, p2, ("  Building artifact.").data,
            ("  Could not build artifact: ").data ++ r3.out]⟩
      else
        ⟨true, [fetchTagsCmd, checkoutTagCmd artifact version, mvnInstallCmd],
          [p1, p2, ("  Building artifact.").data]⟩
    else ⟨true, [fetchTagsCmd, checkoutTagCmd artifact version], [p1, p2]⟩

/-! ### Installer (`install`, source lines 139-164, and the directory
creation of `subcopy_mastodon_jar`, source lines 166-170) -/

/-- Directory creation guarded by an existence test, as in
`if not os.path.exists( d ): os.mkdir( d )`; the file system is the list of
directories that exist. -/
def ensure_dir (fs : List Chars) (d : Chars) : List Chars :=
  if d ∈ fs then fs else fs ++ [d]

/-- Literal compared by `branch_name.lower().startswith( 'mastodon' )`. -/
def mastodonLower : Chars := ("mastodon").data

/-- The local destination directory name built by `install` from the primary
artifact's branch/tag name and today's date (`'./%s-%s-all'` or
`'./Mastodon-%s-%s-all'`). -/
def targetDirName (branch today : Chars) : Chars :=
  if mastodonLower.isPrefixOf (branch.map Char.toLower) then
    ("./").data ++ branch ++ ("-").data ++ today ++ ("-all").data
  else
    ("./Mastodon-").data ++ branch ++ ("-").data ++ today ++ ("-all").data

/-- Command stem `mvn clean install -Dscijava.app.directory=` of the
local-directory install. -/
def scijavaFlag : Chars := ("mvn clean install -Dscijava.app.directory=").data

/-- Outcome of `install`: result flag (`False` is returned by the source on a
failed command; the fall-through `None` return is modelled as `true`), the
destination and copy-sibling directory names when they were computed, the
file system afterwards, and the commands issued. -/
structure InstallResult where
  success : Bool
  target_dir : Option Chars
  copy_dir : Option Chars
  fs : List Chars
  cmds : List Chars
  deriving DecidableEq

/-- Function `install` from the source, including the directory creation of
`subcopy_mastodon_jar` (`copy_dir = target_dir[0:-4]`). `mastodonStatus` is
the `git status -uno` output of the `mastodon` repository consumed by
`get_branch_name`; `none` models the crash inside `get_branch_name`. The
jar copies themselves are opaque file-system operations and are not
modelled. -/
def install (exec : Exec) (fs0 : List Chars) (default_location : Bool)
    (mastodonStatus : List Chars) (today : Chars) : Option InstallResult :=
  if default_location then
    let r := exec mvnInstallCmd
    some ⟨r.ok, none, none, fs0, [mvnInstallCmd]⟩
  else
    match get_branch_name mastodonStatus with
    | none => none
    | some branch =>
      let target := targetDirName branch today
      let fs1 := ensure_dir fs0 target
      let cmd := scijavaFlag ++ target
      let r := exec cmd
      if !r.ok then some ⟨false, some target, none, fs1, [cmd]⟩
      else
        let copyd := target.take (target.length - 4)
        let fs2 := ensure_dir fs1 copyd
        some ⟨true, some target, some copyd, fs2, [cmd]⟩

/-! ### Orchestrator (`run`, source lines 188-230) -/

/-- The mastodon core artifacts (module-level list `ARTIFACTS`). -/
def ARTIFACTS : List Chars :=
  [("mastodon-collection").data, ("mastodon-graph").data, ("mastodon").data,
    ("mastodon-tracking").data, ("mastodon-ellipsoid-fitting").data,
    ("mastodon-selection-creator").data, ("mastodon-pasteur").data,
    ("mastodon-tomancak").data, ("mastodon-app").data]

/-- Extra third-party artifacts (module-level list `EXTRAS`). -/
def EXTRAS : List Chars :=
  [("mobie-io").data, ("humble-video-all").data, ("humble-video-noarch").data]

/-- Name of the primary artifact whose branch names the install directory. -/
def mastodonName : Chars := ("mastodon").data

/-- Name of the umbrella repository in which the aggregate install runs. -/
def mastodonAppName : Chars := ("mastodon-app").data

/-- One observable step of the pipeline. -/
inductive Event where
  | readVersion : Chars → Chars → Event
  | cleanCheck : Chars → Bool → Event
  | checkoutCall : Chars → Chars → List Chars → Event
  | installStage : List Chars → Event
  | restoreMaster : Chars → Event
  deriving DecidableEq

/-- The external world seen by a whole run: the pom text, per-repository
`git status -uno` results, a per-repository command oracle, the file system
and today's date. -/
structure World where
  pom : Chars
  status : Chars → List Chars
  statusOk : Chars → Bool
  exec : Chars → Exec
  fs : List Chars
  today : Chars

/-- The cleanliness loop of `run` (source lines 201-203): check artifacts in
order, stopping at the first failure; `none` as second component models a
crash inside `check_if_clean`, `some b` that the loop finished with overall
verdict `b`. -/
def checkAll (w : World) (su sus : Bool) : List Chars → List Event × Option Bool
  | [] => ([], some true)
  | a :: rest =>
    match check_if_clean (w.statusOk a) (w.status a) su sus with
    | none => ([], none)
    | some false => ([Event.cleanCheck a false], some false)
    | some true =>
      let r := checkAll w su sus rest
      (Event.cleanCheck a true :: r.1, r.2)

/-- The checkout loop of `run` (source lines 208-212): check out artifacts in
order, stopping at the first failure. -/
def checkoutAll (w : World) (d : Bool) : List Chars → List Event × Bool
  | [] => ([], true)
  | a :: rest =>
    let v := get_artifact_version a w.pom
    let o := git_checkout_version (w.exec a) a v d
    if o.success then
      let r := checkoutAll w d rest
      (Event.checkoutCall a v o.cmds :: r.1, r.2)
    else ([Event.checkoutCall a v o.cmds], false)

/-- The install stage of `run` (source line 217): the install command runs in
the `mastodon-app` repository; `true` as second component models a crash
inside `install` (which would end the whole process). -/
def installStep (w : World) (install_to_default : Bool) : List Event × Bool :=
  match install (w.exec mastodonAppName) w.fs install_to_default
      (w.status mastodonName) w.today with
  | none => ([Event.installStage []], true)
  | some o => ([Event.installStage o.cmds], false)

/-- Result of a whole run: the event trace and whether the process crashed. -/
structure RunResult where
  trace : List Event
  crashed : Bool

/-- Function `run` from the source. A non-preview run reads versions, checks
cleanliness (returning early at the first failure), checks out the pinned
versions (returning early at the first failure), installs, then restores
every artifact to `master`; a preview run goes straight to the install and
skips the restore. The return value of `install` is ignored by the source,
so the restore stage runs even after a failed install. -/
def run (w : World) (install_to_default is_preview do_install su sus : Bool) : RunResult :=
  if is_preview then
    let i := installStep w install_to_default
    ⟨i.1, i.2⟩
  else
    let reads := ARTIFACTS.map (fun a => Event.readVersion a (get_artifact_version a w.pom))
    let c := checkAll w su sus ARTIFACTS
    match c.2 with
    | none => ⟨reads ++ c.1, true⟩
    | some false => ⟨reads ++ c.1, false⟩
    | some true =>
      let x := checkoutAll w do_install ARTIFACTS
      if x.2 then
        let i := installStep w install_to_default
        if i.2 then ⟨reads ++ c.1 ++ x.1 ++ i.1, true⟩
        else ⟨reads ++ c.1 ++ x.1 ++ i.1 ++ ARTIFACTS.map Event.restoreMaster, false⟩
      else ⟨reads ++ c.1 ++ x.1, false⟩

/-- Is an event a version checkout? -/
def isVersionCheckout : Event → Bool
  | Event.checkoutCall _ _ _ => true
  | _ => false

/-- Is an event the install stage? -/
def isInstallEvent : Event → Bool
  | Event.installStage _ => true
  | _ => false

/-! ### General helper lemmas -/

lemma isPrefixOf_append_self : ∀ l t : Chars, l.isPrefixOf (l ++ t) = true
  | [], _ => by simp [List.isPrefixOf]
  | a :: l, t => by simp [List.isPrefixOf, isPrefixOf_append_self l t]

lemma exists_of_isPrefixOf : ∀ {l s : Chars}, l.isPrefixOf s = true → ∃ t, s = l ++ t := by
  intro l
  induction l with
  | nil => intro s _; exact ⟨s, rfl⟩
  | cons a l ih =>
    intro s h
    cases s with
    | nil => simp [List.isPrefixOf] at h
    | cons b t =>
      simp only [List.isPrefixOf, Bool.and_eq_true, beq_iff_eq] at h
      obtain ⟨rfl, h2⟩ := h
      obtain ⟨u, hu⟩ := ih h2
      exact ⟨u, by rw [hu]; rfl⟩

lemma contains_eq_false_of_not_mem {a : Char} {l : Chars} (h : a ∉ l) :
    l.contains a = false := by
  simpa using h

lemma contains_eq_true_of_mem {a : Char} {l : Chars} (h : a ∈ l) :
    l.contains a = true := by
  simpa using h

/-- All-success command oracle, used to instantiate theorems at concrete
inputs. -/
def allOkExec : Exec := fun _ => ⟨true, []⟩

/-! ### Claims C2 and C3: the cleanliness checker -/

/-- Claim C2, counterexample: a status text that contains neither the
up-to-date indicator nor the nothing-to-commit indicator, with the sync
check not overridden, on which `check_if_clean` does not return `false`:
it crashes (`none`), because the text has no `On branch` and no
`HEAD detached at` line. -/
theorem c2_cex :
    anyLineHas upToDateMark [("fatal: not a git repository").data] = false ∧
    anyLineHas nothingToCommitMark [("fatal: not a git repository").data] = false ∧
    check_if_clean true [("fatal: not a git repository").data] false false = none ∧
    check_if_clean true [("fatal: not a git repository").data] false false ≠ some false := by
  refine ⟨by decide, by decide, by decide, by decide⟩

/-- Claim C2 (amended): for every git-status output that contains neither
the up-to-date indicator nor the nothing-to-commit indicator, if the sync
check is not overridden and the output contains an `On branch` line or a
`HEAD detached at` line (so that the ref detection succeeds), then
`check_if_clean` returns `false`. -/
theorem c2_clean_check_false (gitOk : Bool) (out : List Chars) (sus : Bool)
    (h1 : anyLineHas upToDateMark out = false)
    (h2 : anyLineHas nothingToCommitMark out = false)
    (h3 : matchLineTail branchPat out ≠ none ∨ matchLineTail detachedPat out ≠ none) :
    check_if_clean gitOk out false sus = some false := by
  cases gitOk with
  | false => rfl
  | true =>
    simp only [check_if_clean]
    cases hb : matchLineTail branchPat out with
    | some b => simp [hb, h1]
    | none =>
      cases hd : matchLineTail detachedPat out with
      | some t => simp [hb, hd, h2]
      | none =>
        rcases h3 with h3 | h3
        · exact absurd hb h3
        · exact absurd hd h3

/-- Claim C2, witness of the amended theorem at a concrete input. -/
theorem c2_clean_check_false_witness :
    anyLineHas upToDateMark [("On branch main").data] = false ∧
    anyLineHas nothingToCommitMark [("On branch main").data] = false ∧
    check_if_clean true [("On branch main").data] false false = some false := by
  refine ⟨by decide, by decide, ?_⟩
  exact c2_clean_check_false true [("On branch main").data] false (by decide) (by decide)
    (Or.inl (by decide))

/-- Claim C3: on a git-status output containing neither an `On branch ...`
line nor a `HEAD detached at ...` line, `check_if_clean` and
`get_branch_name` crash (dereference of the failed pattern match
`tag_match.group( 1 )`, modelled by `none`) rather than returning `false`
or reporting an error. -/
theorem c3_crash_on_unrecognized_status :
    matchLineTail branchPat [("fatal: not a git repository").data] = none ∧
    matchLineTail detachedPat [("fatal: not a git repository").data] = none ∧
    check_if_clean true [("fatal: not a git repository").data] false false = none ∧
    get_branch_name [("fatal: not a git repository").data] = none := by
  refine ⟨by decide, by decide, by decide, by decide⟩

/-! ### Claims C4, C5 and C6: the version switcher -/

/-- Claim C4: for every version string ending with the snapshot marker,
`git_checkout_version` issues no command and reports success. -/
theorem c4_snapshot_skips_checkout (exec : Exec) (artifact version : Chars)
    (do_install : Bool) (h : snapshotMark.isSuffixOf version = true) :
    (git_checkout_version exec artifact version do_install).success = true ∧
    (git_checkout_version exec artifact version do_install).cmds = [] := by
  simp [git_checkout_version, h]

/-- Claim C4, witness at version `1.2.3-SNAPSHOT`. -/
theorem c4_snapshot_skips_checkout_witness :
    snapshotMark.isSuffixOf (("1.2.3-SNAPSHOT").data) = true ∧
    (git_checkout_version allOkExec (("foo").data) (("1.2.3-SNAPSHOT").data) false).success = true ∧
    (git_checkout_version allOkExec (("foo").data) (("1.2.3-SNAPSHOT").data) false).cmds = [] := by
  refine ⟨by decide, ?_⟩
  exact c4_snapshot_skips_checkout allOkExec (("foo").data) (("1.2.3-SNAPSHOT").data) false
    (by decide)

/-- Claim C5: for every non-snapshot version, the switcher issues the
detached-head checkout (with the detached-head advice suppressed) of the
ref `artifact-version`, right after the tag fetch. -/
theorem c5_checkout_ref (exec : Exec) (artifact version : Chars) (do_install : Bool)
    (h : snapshotMark.isSuffixOf version = false) :
    ∃ rest, (git_checkout_version exec artifact version do_install).cmds =
      fetchTagsCmd :: checkoutTagCmd artifact version :: rest := by
  cases hr : (exec (checkoutTagCmd artifact version)).ok with
  | false => exact ⟨[], by simp [git_checkout_version, h, hr]⟩
  | true =>
    cases do_install with
    | false => exact ⟨[], by simp [git_checkout_version, h, hr]⟩
    | true =>
      cases hm : (exec mvnInstallCmd).ok with
      | false => exact ⟨[mvnInstallCmd], by simp [git_checkout_version, h, hr, hm]⟩
      | true => exact ⟨[mvnInstallCmd], by simp [git_checkout_version, h, hr, hm]⟩

/-- Claim C5, witness: for artifact `foo` and version `0.9.0` the issued
checkout command names the ref `foo-0.9.0`. -/
theorem c5_checkout_ref_witness :
    snapshotMark.isSuffixOf (("0.9.0").data) = false ∧
    checkoutTagCmd (("foo").data) (("0.9.0").data) =
      ("git -c advice.detachedHead=false checkout foo-0.9.0").data ∧
    (∃ rest, (git_checkout_version allOkExec (("foo").data) (("0.9.0").data) false).cmds =
      fetchTagsCmd :: checkoutTagCmd (("foo").data) (("0.9.0").data) :: rest) := by
  refine ⟨by decide, by decide, ?_⟩
  exact c5_checkout_ref allOkExec (("foo").data) (("0.9.0").data) false (by decide)

/-- Oracle on which the tag fetch fails while every other command
succeeds. -/
def failFetchExec : Exec := fun c =>
  if c = fetchTagsCmd then ⟨false, ("fatal: unable to access remote").data⟩
  else ⟨true, []⟩

/-- Oracle on which the checkout fails while every other command
succeeds. -/
def failCheckoutExec : Exec := fun c =>
  if c = checkoutTagCmd (("foo").data) (("0.9.0").data) then
    ⟨false, ("error: pathspec did not match").data⟩
  else ⟨true, []⟩

/-- Claim C6, counterexample: the result of `git pull --tags` is never
inspected (the source overwrites `ok, out` with the checkout's result before
reading them), so a failing tag fetch neither aborts the switcher nor
prevents the subsequent checkout: here the fetch fails, yet the checkout is
still issued and the switcher reports success. -/
theorem c6_cex :
    (failFetchExec fetchTagsCmd).ok = false ∧
    (git_checkout_version failFetchExec (("foo").data) (("0.9.0").data) false).success = true ∧
    (git_checkout_version failFetchExec (("foo").data) (("0.9.0").data) false).cmds =
      [fetchTagsCmd, checkoutTagCmd (("foo").data) (("0.9.0").data)] := by
  refine ⟨by decide, by decide, by decide⟩

lemma mvn_ne_checkoutTagCmd (a v : Chars) : mvnInstallCmd ≠ checkoutTagCmd a v := by
  intro h
  have h0 : mvnInstallCmd.head? = (checkoutTagCmd a v).head? := congrArg List.head? h
  rw [show mvnInstallCmd.head? = some 'm' from rfl,
    show (checkoutTagCmd a v).head? = some 'g' from rfl] at h0
  exact absurd h0 (by decide)

/-- Claim C6 (amended): a failure of the checkout or of the optional build
makes `git_checkout_version` return failure and print the tool's raw output,
and no later step runs (in particular no build after a failed checkout); the
result of the tag fetch, however, is ignored by the source, so a fetch
failure alone aborts nothing. -/
theorem c6_checkout_build_failures (exec : Exec) (artifact version : Chars)
    (do_install : Bool) (h : snapshotMark.isSuffixOf version = false) :
    ((exec (checkoutTagCmd artifact version)).ok = false →
      (git_checkout_version exec artifact version do_install).success = false ∧
      (("  Could not checkout specified version: ").data ++
          (exec (checkoutTagCmd artifact version)).out) ∈
        (git_checkout_version exec artifact version do_install).prints ∧
      mvnInstallCmd ∉ (git_checkout_version exec artifact version do_install).cmds) ∧
    ((exec (checkoutTagCmd artifact version)).ok = true → do_install = true →
      (exec mvnInstallCmd).ok = false →
      (git_checkout_version exec artifact version do_install).success = false ∧
      (("  Could not build artifact: ").data ++ (exec mvnInstallCmd).out) ∈
        (git_checkout_version exec artifact version do_install).prints) := by
  constructor
  · intro hco
    refine ⟨by simp [git_checkout_version, h, hco], by simp [git_checkout_version, h, hco], ?_⟩
    have hcmds : (git_checkout_version exec artifact version do_install).cmds =
        [fetchTagsCmd, checkoutTagCmd artifact version] := by
      simp [git_checkout_version, h, hco]
    rw [hcmds]
    intro hm
    rcases List.mem_cons.mp hm with h1 | h1
    · exact absurd h1 (by decide)
    · rcases List.mem_cons.mp h1 with h2 | h2
      · exact mvn_ne_checkoutTagCmd artifact version h2
      · exact absurd h2 (List.not_mem_nil _)
  · intro hco hd hmvn
    subst hd
    refine ⟨by simp [git_checkout_version, h, hco, hmvn], ?_⟩
    simp [git_checkout_version, h, hco, hmvn]

/-- Claim C6, witness of the amended theorem: a failing checkout aborts with
its raw output and no build runs. -/
theorem c6_checkout_build_failures_witness :
    snapshotMark.isSuffixOf (("0.9.0").data) = false ∧
    (failCheckoutExec (checkoutTagCmd (("foo").data) (("0.9.0").data))).ok = false ∧
    ((git_checkout_version failCheckoutExec (("foo").data) (("0.9.0").data) true).success = false ∧
      (("  Could not checkout specified version: ").data ++
          (failCheckoutExec (checkoutTagCmd (("foo").data) (("0.9.0").data))).out) ∈
        (git_checkout_version failCheckoutExec (("foo").data) (("0.9.0").data) true).prints ∧
      mvnInstallCmd ∉ (git_checkout_version failCheckoutExec (("foo").data) (("0.9.0").data) true).cmds) := by
  refine ⟨by decide, by decide, ?_⟩
  exact (c6_checkout_build_failures failCheckoutExec (("foo").data) (("0.9.0").data) true
    (by decide)).1 (by decide)

/-! ### Claims C7 and C10: the installer's directory names -/

lemma get_branch_name_single (b : Chars) (hb : b ≠ []) :
    get_branch_name [branchPat ++ b] = some b := by
  have h1 : branchPat.isPrefixOf (branchPat ++ b) = true := isPrefixOf_append_self _ _
  have h2 : branchPat.length < (branchPat ++ b).length := by
    rw [List.length_append]
    have := List.length_pos.mpr hb
    omega
  have h3 : 0 < b.length := List.length_pos.mpr hb
  simp [get_branch_name, matchLineTail, h1, h2, h3, List.drop_left]

/-- Claim C7: in local-directory mode with primary-artifact branch
`mastodon-dev` and date `2024-01-15`, the destination directory is
`./mastodon-dev-2024-01-15-all`, the copy sibling (the destination with its
trailing four characters removed) is `./mastodon-dev-2024-01-15`, both are
created through the existence-guarded `ensure_dir`, and that creation is a
no-op on a directory that already exists. -/
theorem c7_install_dirs (exec : Exec) (fs : List Chars)
    (h : (exec (scijavaFlag ++ ("./mastodon-dev-2024-01-15-all").data)).ok = true) :
    install exec fs false [("On branch mastodon-dev").data] (("2024-01-15").data) =
      some ⟨true, some (("./mastodon-dev-2024-01-15-all").data),
        some (("./mastodon-dev-2024-01-15").data),
        ensure_dir (ensure_dir fs (("./mastodon-dev-2024-01-15-all").data))
          (("./mastodon-dev-2024-01-15").data),
        [scijavaFlag ++ ("./mastodon-dev-2024-01-15-all").data]⟩ ∧
    (∀ gs : List Chars, ∀ d : Chars, d ∈ gs → ensure_dir gs d = gs) := by
  constructor
  · have hgb : get_branch_name [("On branch mastodon-dev").data] =
        some (("mastodon-dev").data) := by decide
    have htd : targetDirName (("mastodon-dev").data) (("2024-01-15").data) =
        ("./mastodon-dev-2024-01-15-all").data := by decide
    have hcp : (("./mastodon-dev-2024-01-15-all").data).take
        ((("./mastodon-dev-2024-01-15-all").data).length - 4) =
        ("./mastodon-dev-2024-01-15").data := by decide
    simp only [install, hgb, htd, hcp, h, Bool.not_true, Bool.false_eq_true, if_false,
      Bool.not_false]
  · intro gs d hd
    simp [ensure_dir, hd]

/-- Claim C7, witness at a concrete oracle and a file system already holding
both directories. -/
theorem c7_install_dirs_witness :
    (allOkExec (scijavaFlag ++ ("./mastodon-dev-2024-01-15-all").data)).ok = true ∧
    (install allOkExec
        [("./mastodon-dev-2024-01-15-all").data, ("./mastodon-dev-2024-01-15").data] false
        [("On branch mastodon-dev").data] (("2024-01-15").data) =
      some ⟨true, some (("./mastodon-dev-2024-01-15-all").data),
        some (("./mastodon-dev-2024-01-15").data),
        ensure_dir (ensure_dir
            [("./mastodon-dev-2024-01-15-all").data, ("./mastodon-dev-2024-01-15").data]
            (("./mastodon-dev-2024-01-15-all").data))
          (("./mastodon-dev-2024-01-15").data),
        [scijavaFlag ++ ("./mastodon-dev-2024-01-15-all").data]⟩ ∧
    (∀ gs : List Chars, ∀ d : Chars, d ∈ gs → ensure_dir gs d = gs)) := by
  refine ⟨by decide, ?_⟩
  exact c7_install_dirs allOkExec
    [("./mastodon-dev-2024-01-15-all").data, ("./mastodon-dev-2024-01-15").data] (by decide)

/-- Claim C10: in local-directory mode the destination directory name gets
the added `Mastodon-` human-readable stem exactly when the primary
artifact's branch/tag name does not start, case-insensitively, with
`mastodon`; when it does, the branch/tag name itself begins the (relative)
directory name right after `./`, with no added stem. -/
theorem c10_mastodon_stem (exec : Exec) (fs : List Chars) (b today : Chars)
    (hb : b ≠ [])
    (hok : (exec (scijavaFlag ++ targetDirName b today)).ok = true) :
    install exec fs false [branchPat ++ b] today =
      some ⟨true, some (targetDirName b today),
        some ((targetDirName b today).take ((targetDirName b today).length - 4)),
        ensure_dir (ensure_dir fs (targetDirName b today))
          ((targetDirName b today).take ((targetDirName b today).length - 4)),
        [scijavaFlag ++ targetDirName b today]⟩ ∧
    (mastodonLower.isPrefixOf (b.map Char.toLower) = true →
      targetDirName b today = ("./").data ++ b ++ ("-").data ++ today ++ ("-all").data) ∧
    (mastodonLower.isPrefixOf (b.map Char.toLower) = false →
      targetDirName b today =
        ("./Mastodon-").data ++ b ++ ("-").data ++ today ++ ("-all").data) := by
  refine ⟨?_, ?_, ?_⟩
  · simp only [install, get_branch_name_single b hb, hok, Bool.not_true, Bool.false_eq_true,
      if_false]
  · intro hcase
    simp [targetDirName, hcase]
  · intro hcase
    simp [targetDirName, hcase]

/-- Claim C10, witness at branch `dev` (which does not start with
`mastodon`, so the `Mastodon-` stem is added). -/
theorem c10_mastodon_stem_witness :
    (("dev").data : Chars) ≠ [] ∧
    (allOkExec (scijavaFlag ++ targetDirName (("dev").data) (("2024-01-15").data))).ok = true ∧
    (install allOkExec [] false [branchPat ++ ("dev").data] (("2024-01-15").data) =
      some ⟨true, some (targetDirName (("dev").data) (("2024-01-15").data)),
        some ((targetDirName (("dev").data) (("2024-01-15").data)).take
          ((targetDirName (("dev").data) (("2024-01-15").data)).length - 4)),
        ensure_dir (ensure_dir [] (targetDirName (("dev").data) (("2024-01-15").data)))
          ((targetDirName (("dev").data) (("2024-01-15").data)).take
            ((targetDirName (("dev").data) (("2024-01-15").data)).length - 4)),
        [scijavaFlag ++ targetDirName (("dev").data) (("2024-01-15").data)]⟩ ∧
    (mastodonLower.isPrefixOf ((("dev").data).map Char.toLower) = true →
      targetDirName (("dev").data) (("2024-01-15").data) =
        ("./").data ++ ("dev").data ++ ("-").data ++ ("2024-01-15").data ++ ("-all").data) ∧
    (mastodonLower.isPrefixOf ((("dev").data).map Char.toLower) = false →
      targetDirName (("dev").data) (("2024-01-15").data) =
        ("./Mastodon-").data ++ ("dev").data ++ ("-").data ++ ("2024-01-15").data ++
          ("-all").data)) := by
  refine ⟨by decide, by decide, ?_⟩
  exact c10_mastodon_stem allOkExec [] (("dev").data) (("2024-01-15").data) (by decide)
    (by decide)

/-! ### Claims C8 and C9: the orchestrated run -/

lemma install_local_cmds (exec : Exec) (fs st : List Chars) (today : Chars)
    (o : InstallResult) (h : install exec fs false st today = some o) :
    ∃ t, o.cmds = [scijavaFlag ++ t] := by
  simp only [install, Bool.false_eq_true, if_false] at h
  cases hgb : get_branch_name st with
  | none => rw [hgb] at h; exact absurd h (by simp)
  | some b =>
    rw [hgb] at h
    refine ⟨targetDirName b today, ?_⟩
    cases hr : (exec (scijavaFlag ++ targetDirName b today)).ok with
    | false =>
      simp only [hr, Bool.not_false, if_true, Option.some.injEq] at h
      rw [← h]
    | true =>
      simp only [hr, Bool.not_true, Bool.false_eq_true, if_false, Option.some.injEq] at h
      rw [← h]

/-- Claim C8: a preview run with install-to-default unset and build unset
produces a trace consisting of the install stage alone — no version reads,
no cleanliness checks, no version checkouts and no branch restores — and
every command the install stage issues is the local-directory install
command. -/
theorem c8_preview_only_install (w : World) (su sus : Bool) :
    ∃ cs, (run w false true false su sus).trace = [Event.installStage cs] ∧
      ∀ c ∈ cs, ∃ t, c = scijavaFlag ++ t := by
  have htr : (run w false true false su sus).trace = (installStep w false).1 := by
    simp [run]
  rw [htr]
  simp only [installStep]
  cases hi : install (w.exec mastodonAppName) w.fs false (w.status mastodonName) w.today with
  | none =>
    refine ⟨[], rfl, ?_⟩
    intro c hc
    exact absurd hc (List.not_mem_nil _)
  | some o =>
    obtain ⟨t, ht⟩ := install_local_cmds _ _ _ _ _ hi
    refine ⟨o.cmds, rfl, ?_⟩
    intro c hc
    rw [ht] at hc
    rcases List.mem_cons.mp hc with h1 | h1
    · exact ⟨t, h1⟩
    · exact absurd h1 (List.not_mem_nil _)

lemma checkAll_events (w : World) (su sus : Bool) :
    ∀ l, ∀ e ∈ (checkAll w su sus l).1, ∃ a b, e = Event.cleanCheck a b := by
  intro l
  induction l with
  | nil => intro e he; exact absurd he (List.not_mem_nil _)
  | cons a rest ih =>
    intro e he
    simp only [checkAll] at he
    cases hc : check_if_clean (w.statusOk a) (w.status a) su sus with
    | none => rw [hc] at he; exact absurd he (List.not_mem_nil _)
    | some v =>
      cases v with
      | false =>
        rw [hc] at he
        rcases List.mem_cons.mp he with h1 | h1
        · exact ⟨a, false, h1⟩
        · exact absurd h1 (List.not_mem_nil _)
      | true =>
        rw [hc] at he
        rcases List.mem_cons.mp he with h1 | h1
        · exact ⟨a, true, h1⟩
        · exact ih e h1

lemma checkAll_ne_some_true (w : World) (su sus : Bool) :
    ∀ l, (∃ a ∈ l, check_if_clean (w.statusOk a) (w.status a) su sus = some false) →
      (checkAll w su sus l).2 ≠ some true := by
  intro l
  induction l with
  | nil =>
    rintro ⟨a, ha, -⟩
    exact absurd ha (List.not_mem_nil _)
  | cons a0 rest ih =>
    rintro ⟨a, ha, hf⟩
    simp only [checkAll]
    cases hc : check_if_clean (w.statusOk a0) (w.status a0) su sus with
    | none => simp
    | some v =>
      cases v with
      | false => simp
      | true =>
        rcases List.mem_cons.mp ha with h1 | h1
        · subst h1; rw [hc] at hf; exact absurd hf (by simp)
        · exact ih ⟨a, h1, hf⟩

/-- Claim C9: in a non-preview run, if some repository fails the
cleanliness check, the trace contains no version-checkout event and no
install event: the whole run stops at the cleanliness gate. -/
theorem c9_no_checkout_after_dirty (w : World) (itd d su sus : Bool)
    (h : ∃ a ∈ ARTIFACTS, check_if_clean (w.statusOk a) (w.status a) su sus = some false) :
    ∀ e ∈ (run w itd false d su sus).trace,
      isVersionCheckout e = false ∧ isInstallEvent e = false := by
  intro e he
  have hni := checkAll_ne_some_true w su sus ARTIFACTS h
  have htr : (run w itd false d su sus).trace =
      (ARTIFACTS.map (fun a => Event.readVersion a (get_artifact_version a w.pom))) ++
        (checkAll w su sus ARTIFACTS).1 := by
    simp only [run, Bool.false_eq_true, if_false]
    cases hc2 : (checkAll w su sus ARTIFACTS).2 with
    | none => rfl
    | some v =>
      cases v with
      | false => rfl
      | true => exact absurd hc2 hni
  rw [htr] at he
  rcases List.mem_append.mp he with h1 | h1
  · obtain ⟨a, -, ha⟩ := List.mem_map.mp h1
    rw [← ha]
    exact ⟨rfl, rfl⟩
  · obtain ⟨a, v, hav⟩ := checkAll_events w su sus ARTIFACTS e h1
    rw [hav]
    exact ⟨rfl, rfl⟩

/-- Concrete world for the C9 witness: every repository reports a branch
with no up-to-date indicator, so the first cleanliness check already
fails. -/
def dirtyWorld : World :=
  ⟨[], fun _ => [("On branch master").data], fun _ => true, fun _ => allOkExec, [],
    ("2024-01-15").data⟩

/-- Claim C9, witness at a concrete world whose first repository fails the
cleanliness check. -/
theorem c9_no_checkout_after_dirty_witness :
    (("mastodon-collection").data ∈ ARTIFACTS ∧
      check_if_clean (dirtyWorld.statusOk (("mastodon-collection").data))
        (dirtyWorld.status (("mastodon-collection").data)) false false = some false) ∧
    ∀ e ∈ (run dirtyWorld false false false false false).trace,
      isVersionCheckout e = false ∧ isInstallEvent e = false := by
  refine ⟨⟨by decide, by decide⟩, ?_⟩
  exact c9_no_checkout_after_dirty dirtyWorld false false false false
    ⟨("mastodon-collection").data, by decide, by decide⟩

/-! ### Claim C1: the version reader

The lemmas below characterise `findCapture` (the embedding of the regex
search): soundness (any returned capture really is the content of a version
element occurring in the text) and an exact computation on a text that
decomposes around a designated element. -/

lemma greedyCapture_bounds (c rest : Chars) :
    ∀ n k, greedyCapture c rest n = some k →
      0 < k ∧ k ≤ n ∧ c.isPrefixOf (rest.drop k) = true ∧
        (rest.take k).contains '\n' = false := by
  intro n
  induction n with
  | zero => intro k h; exact absurd h (by simp [greedyCapture])
  | succ m ih =>
    intro k h
    simp only [greedyCapture] at h
    cases hcond : c.isPrefixOf (rest.drop (m + 1)) && !((rest.take (m + 1)).contains '\n') with
    | true =>
      rw [hcond] at h
      simp only [if_true] at h
      obtain ⟨hpre, hnl⟩ := Bool.and_eq_true_iff.mp hcond
      cases h
      exact ⟨Nat.succ_pos m, Nat.le_refl _, hpre, by simpa using hnl⟩
    | false =>
      rw [hcond] at h
      simp only [Bool.false_eq_true, if_false] at h
      obtain ⟨hk1, hk2, hk3, hk4⟩ := ih k h
      exact ⟨hk1, Nat.le_succ_of_le hk2, hk3, hk4⟩

lemma greedyCapture_finds (c rest : Chars) (m : Nat)
    (hm0 : 0 < m)
    (hpre : c.isPrefixOf (rest.drop m) = true)
    (hnl : (rest.take m).contains '\n' = false) :
    ∀ n, m ≤ n →
      (∀ k, m < k → k ≤ n →
        (c.isPrefixOf (rest.drop k) && !((rest.take k).contains '\n')) = false) →
      greedyCapture c rest n = some m := by
  intro n
  induction n with
  | zero => intro h0 _; omega
  | succ p ih =>
    intro hle hfail
    simp only [greedyCapture]
    rcases Nat.lt_or_ge m (p + 1) with hlt | hge
    · have hf := hfail (p + 1) hlt (Nat.le_refl _)
      rw [hf]
      simp only [Bool.false_eq_true, if_false]
      exact ih (by omega) (fun k hk1 hk2 => hfail k hk1 (by omega))
    · have heq : m = p + 1 := by omega
      subst heq
      rw [hpre, hnl]
      simp

lemma matchAt_exact (o c X S : Chars)
    (hX : X ≠ []) (hXn : '\n' ∉ X)
    (hS : ∀ j, j < (c ++ S).length + 1 → 0 < j →
      c.isPrefixOf ((c ++ S).drop j) = true → '\n' ∈ (c ++ S).take j) :
    matchAt o c (o ++ (X ++ (c ++ S))) = some X := by
  have hop : o.isPrefixOf (o ++ (X ++ (c ++ S))) = true := isPrefixOf_append_self _ _
  have hdrop : (o ++ (X ++ (c ++ S))).drop o.length = X ++ (c ++ S) := List.drop_left _ _
  have hm0 : 0 < X.length := List.length_pos.mpr hX
  have hpre : c.isPrefixOf ((X ++ (c ++ S)).drop X.length) = true := by
    rw [List.drop_left]
    exact isPrefixOf_append_self _ _
  have hnl : ((X ++ (c ++ S)).take X.length).contains '\n' = false := by
    rw [List.take_left]
    exact contains_eq_false_of_not_mem hXn
  have hfail : ∀ k, X.length < k → k ≤ (X ++ (c ++ S)).length →
      (c.isPrefixOf ((X ++ (c ++ S)).drop k) &&
        !(((X ++ (c ++ S)).take k).contains '\n')) = false := by
    intro k hk1 hk2
    obtain ⟨j, rfl⟩ : ∃ j, k = X.length + j := ⟨k - X.length, by omega⟩
    have hdropk : (X ++ (c ++ S)).drop (X.length + j) = (c ++ S).drop j :=
      List.drop_append _
    have htakek : (X ++ (c ++ S)).take (X.length + j) = X ++ (c ++ S).take j :=
      List.take_append _
    rw [hdropk, htakek]
    cases hc1 : c.isPrefixOf ((c ++ S).drop j) with
    | false => simp
    | true =>
      have hj1 : 0 < j := by omega
      have hj2 : j < (c ++ S).length + 1 := by
        rw [List.length_append] at hk2
        omega
      have hmem : '\n' ∈ X ++ (c ++ S).take j :=
        List.mem_append.mpr (Or.inr (hS j hj2 hj1 hc1))
      rw [contains_eq_true_of_mem hmem]
      rfl
  have hg : greedyCapture c (X ++ (c ++ S)) (X ++ (c ++ S)).length = some X.length := by
    refine greedyCapture_finds c _ X.length hm0 hpre hnl _ ?_ hfail
    rw [List.length_append]
    omega
  simp only [matchAt, hop, if_true, hdrop, hg, List.take_left]

lemma findCapture_cons_of_matchAt (o c s g : Chars)
    (hs : s ≠ []) (hm : matchAt o c s = some g) :
    findCapture o c s = some g := by
  cases s with
  | nil => exact absurd rfl hs
  | cons a t => simp only [findCapture, hm]

lemma findCapture_append_left (o c : Chars) :
    ∀ P s : Chars,
      (∀ i, i < P.length → o.isPrefixOf ((P ++ s).drop i) = false) →
      findCapture o c (P ++ s) = findCapture o c s := by
  intro P
  induction P with
  | nil => intro s _; rfl
  | cons a t ih =>
    intro s hp
    have h0 : o.isPrefixOf (a :: (t ++ s)) = false := by
      have := hp 0 (Nat.succ_pos _)
      simpa using this
    have hstep : findCapture o c ((a :: t) ++ s) = findCapture o c (t ++ s) := by
      simp [findCapture, matchAt, h0]
    rw [hstep]
    exact ih s (fun i hi => by
      have := hp (i + 1) (by simpa using Nat.succ_lt_succ hi)
      simpa using this)

lemma matchAt_sound (o c s g : Chars) (h : matchAt o c s = some g) :
    ∃ tail, s = o ++ (g ++ (c ++ tail)) ∧ g ≠ [] ∧ '\n' ∉ g := by
  simp only [matchAt] at h
  cases hop : o.isPrefixOf s with
  | false => rw [hop] at h; simp at h
  | true =>
    rw [hop] at h
    simp only [if_true] at h
    cases hg : greedyCapture c (s.drop o.length) (s.drop o.length).length with
    | none => rw [hg] at h; simp at h
    | some k =>
      rw [hg] at h
      simp only [Option.some.injEq] at h
      obtain ⟨hk0, hkn, hkpre, hknl⟩ := greedyCapture_bounds c _ _ k hg
      obtain ⟨t, hts⟩ := exists_of_isPrefixOf hop
      subst hts
      rw [List.drop_left] at h hkpre hknl hkn
      obtain ⟨tail, htail⟩ := exists_of_isPrefixOf hkpre
      refine ⟨tail, ?_, ?_, ?_⟩
      · rw [← h, ← htail, List.take_append_drop]
      · rw [← h]
        intro hnil
        rw [List.take_eq_nil_iff] at hnil
        rcases hnil with hnil | hnil
        · omega
        · rw [hnil] at hkn
          simp at hkn
          omega
      · rw [← h]
        intro hmem
        rw [contains_eq_true_of_mem hmem] at hknl
        exact absurd hknl (by decide)

lemma findCapture_sound (o c : Chars) :
    ∀ s g, findCapture o c s = some g →
      ∃ P tail, s = P ++ (o ++ (g ++ (c ++ tail))) ∧ g ≠ [] ∧ '\n' ∉ g := by
  intro s
  induction s with
  | nil => intro g h; simp [findCapture] at h
  | cons a t ih =>
    intro g h
    simp only [findCapture] at h
    cases hm : matchAt o c (a :: t) with
    | some g0 =>
      rw [hm] at h
      simp only [Option.some.injEq] at h
      subst h
      obtain ⟨tail, hts, hg1, hg2⟩ := matchAt_sound o c (a :: t) g0 hm
      exact ⟨[], tail, by simpa using hts, hg1, hg2⟩
    | none =>
      rw [hm] at h
      obtain ⟨P, tail, hts, hg1, hg2⟩ := ih g h
      exact ⟨a :: P, tail, by simp [hts], hg1, hg2⟩

/-- Claim C1, counterexample: the capture `(.+)` is greedy, so on a
descriptor whose first version element is followed, on the same line, by a
second one, the reader does not return the content of the first element: the
descriptor below contains the element `<a.version>1</a.version>` (content
`1`, and it is the leftmost element), yet the reader returns
`1</a.version><a.version>2`. -/
theorem c1_cex :
    ("<a.version>1</a.version><a.version>2</a.version>").data =
      [] ++ (openTagOf (("a").data) ++ ((("1").data) ++
        (closeTagOf (("a").data) ++ ("<a.version>2</a.version>").data))) ∧
    get_artifact_version (("a").data)
        (("<a.version>1</a.version><a.version>2</a.version>").data) =
      ("1</a.version><a.version>2").data ∧
    get_artifact_version (("a").data)
        (("<a.version>1</a.version><a.version>2</a.version>").data) ≠ ("1").data := by
  refine ⟨by decide, by decide, by decide⟩

/-- Claim C1 (amended): if the descriptor decomposes as
`P ++ <A.version> ++ X ++ </A.version> ++ S` where `X` is nonempty and
newline-free, no occurrence of the open tag starts inside `P`, and the close
tag does not occur again after `X` before a newline intervenes (the greedy
capture would otherwise extend past the first close tag), then
`get_artifact_version` returns exactly `X`; and for a descriptor containing
no version element of the artifact at all, it returns the empty string. -/
theorem c1_version_reader :
    (∀ A P X S : Chars, X ≠ [] → '\n' ∉ X →
      (∀ i, i < P.length →
        (openTagOf A).isPrefixOf
          ((P ++ (openTagOf A ++ (X ++ (closeTagOf A ++ S)))).drop i) = false) →
      (∀ j, j < (closeTagOf A ++ S).length + 1 → 0 < j →
        (closeTagOf A).isPrefixOf ((closeTagOf A ++ S).drop j) = true →
        '\n' ∈ (closeTagOf A ++ S).take j) →
      get_artifact_version A (P ++ (openTagOf A ++ (X ++ (closeTagOf A ++ S)))) = X) ∧
    (∀ A pom : Chars,
      (¬ ∃ P X S : Chars,
        pom = P ++ (openTagOf A ++ (X ++ (closeTagOf A ++ S))) ∧ X ≠ [] ∧ '\n' ∉ X) →
      get_artifact_version A pom = []) := by
  constructor
  · intro A P X S hX hXn hP hS
    have h1 := findCapture_append_left (openTagOf A) (closeTagOf A) P
      (openTagOf A ++ (X ++ (closeTagOf A ++ S))) hP
    have h2 : matchAt (openTagOf A) (closeTagOf A)
        (openTagOf A ++ (X ++ (closeTagOf A ++ S))) = some X :=
      matchAt_exact _ _ _ _ hX hXn hS
    have h3 := findCapture_cons_of_matchAt (openTagOf A) (closeTagOf A) _ X
      (by simp [openTagOf]) h2
    unfold get_artifact_version
    rw [h1, h3]
  · intro A pom hno
    unfold get_artifact_version
    cases hf : findCapture (openTagOf A) (closeTagOf A) pom with
    | none => rfl
    | some g =>
      obtain ⟨P, tail, hts, hg1, hg2⟩ := findCapture_sound _ _ pom g hf
      exact absurd ⟨P, g, tail, hts, hg1, hg2⟩ hno

/-- Claim C1, witness: a descriptor holding exactly one element yields its
content, and an element-free descriptor yields the empty string. -/
theorem c1_version_reader_witness :
    get_artifact_version (("a").data) (("<a.version>1.0</a.version>").data) = ("1.0").data ∧
    get_artifact_version (("a").data) [] = [] := by
  constructor
  · have h := c1_version_reader.1 (("a").data) [] (("1.0").data) [] (by decide) (by decide)
      (by decide) (by decide)
    have heq : ([] : Chars) ++ (openTagOf (("a").data) ++ ((("1.0").data) ++
        (closeTagOf (("a").data) ++ ([] : Chars)))) = ("<a.version>1.0</a.version>").data := by
      decide
    rw [heq] at h
    exact h
  · refine c1_version_reader.2 (("a").data) [] ?_
    rintro ⟨P, X, S, heq, hX, -⟩
    have hlen := congrArg List.length heq
    simp only [List.length_append, List.length_nil] at hlen
    rw [show (openTagOf (("a").data)).length = 11 from by decide,
      show (closeTagOf (("a").data)).length = 12 from by decide] at hlen
    omega

end DeployMastodon
